import Mathlib

/-!
Shallow embedding of `timed_dict/timed_dict.py` (class `TimedDict`).

Python dictionaries are modelled as association lists with unique-key
update semantics (`aset` overwrites the first binding of the key or
appends, `aremove` drops every binding of the key, `alookup` finds the
first binding).  Wall-clock instants and durations are rationals.
`Empty()` results are `Option.none`; a raised `KeyError` is the outer
`Option.none` of a fallible operation.  Callback invocations are
reified as `Call` records carrying the arguments the Python code would
pass, so that theorems can speak about when and with what state a
callback fires.
-/

set_option autoImplicit false

namespace TimedDict

variable {K V A : Type} [DecidableEq K]

/-- First binding of `k` in an association list (Python `d[k]`, as an
`Option` instead of a raised `KeyError`). -/
def alookup : List (K × V) → K → Option V
  | [], _ => none
  | (k', v) :: rest, k => if k = k' then some v else alookup rest k

/-- Python `k in d`. -/
def containsKey (l : List (K × V)) (k : K) : Bool :=
  (alookup l k).isSome

/-- Python `d[k] = v`: overwrite the binding of `k` in place, or append
a fresh one. -/
def aset : List (K × V) → K → V → List (K × V)
  | [], k, v => [(k, v)]
  | (k', v') :: rest, k, v =>
    if k = k' then (k, v) :: rest else (k', v') :: aset rest k v

/-- Python `del d[k]` (the caller checks presence): drop every binding
of `k`. -/
def aremove (l : List (K × V)) (k : K) : List (K × V) :=
  l.filter (fun p => decide (p.1 ≠ k))

/-- Python `d[k] = f(d[k])`, used for `self.time_dict[key] += s`. -/
def amodify : List (K × V) → K → (V → V) → List (K × V)
  | [], _, _ => []
  | (k', v') :: rest, k, f =>
    if k = k' then (k', f v') :: rest else (k', v') :: amodify rest k f

/-- The store state: `self.base_dict` (values) and `self.time_dict`
(absolute expiration instants). -/
structure St (K V : Type) where
  base : List (K × V)
  time : List (K × ℚ)
deriving DecidableEq

/-- One callback invocation `callback(key, value, *callback_args,
**callback_kwargs)`. -/
structure Call (K V A : Type) where
  key : K
  value : V
  args : List A
  kwargs : List (String × A)
deriving DecidableEq

/-- The construction-time configuration stored on the instance by
`TimedDict.__init__`.  `checks_per_second` holds the value of
`self.checks_per_second`, which `__init__` sets to `1. /
checks_per_second` (the reciprocal of the constructor argument).
`repeat_threshold` is the attribute the Python source calls the
expired-keys ratio; `has_callback` is `self.callback is not None`. -/
structure Cfg (A : Type) where
  timeout : ℚ
  checks_per_second : ℚ
  sample_probability : ℚ
  repeat_threshold : ℚ
  has_callback : Bool
  callback_args : List A
  callback_kwargs : List (String × A)
deriving DecidableEq

/-- `TimedDict.__init__`: fails (raises) when `timeout` is omitted,
otherwise stores `1. / checks_per_second` and the remaining options. -/
def mkCfg (timeout : Option ℚ) (checks_per_second sample_probability : ℚ)
    (has_callback : Bool) (repeat_threshold : ℚ)
    (callback_args : List A) (callback_kwargs : List (String × A)) :
    Option (Cfg A) :=
  match timeout with
  | none => none
  | some t =>
    some { timeout := t
           checks_per_second := 1 / checks_per_second
           sample_probability := sample_probability
           repeat_threshold := repeat_threshold
           has_callback := has_callback
           callback_args := callback_args
           callback_kwargs := callback_kwargs }

/-- `TimedDict.__setitem__`: write both mappings, deadline `now +
timeout`. -/
def setitem (cfg : Cfg A) (now : ℚ) (s : St K V) (k : K) (v : V) : St K V :=
  { base := aset s.base k v, time := aset s.time k (now + cfg.timeout) }

/-- `TimedDict.__delitem__`: `del self.base_dict[key]` then `del
self.time_dict[key]`.  The `Bool` is `true` when no `KeyError` was
raised; a `KeyError` from the first `del` leaves the state untouched,
one from the second leaves `base` already mutated. -/
def delitem (s : St K V) (k : K) : St K V × Bool :=
  if containsKey s.base k then
    let s1 : St K V := { s with base := aremove s.base k }
    if containsKey s1.time k then
      ({ s1 with time := aremove s1.time k }, true)
    else (s1, false)
  else (s, false)

/-- `TimedDict.expire_key`: read the value, `del self[key]`, then
invoke the callback (if configured) with `(key, value,
*callback_args, **callback_kwargs)`.  `none` is a propagated
`KeyError`.  The returned state is the store at the moment the
callback runs (the callback does not mutate the store). -/
def expire_key (cfg : Cfg A) (s : St K V) (k : K) :
    Option (St K V × Option (Call K V A)) :=
  match alookup s.base k with
  | none => none
  | some value =>
    let d := delitem s k
    if d.2 then
      some (d.1,
        if cfg.has_callback then
          some { key := k, value := value
                 args := cfg.callback_args, kwargs := cfg.callback_kwargs }
        else none)
    else none

/-- `TimedDict.__getitem__`: `Empty()` when the key is not in
`base_dict`; otherwise compare `now` with `self.time_dict[key]`,
expire inline when `now >= expires_at`, then read `base_dict[key]`
with `Empty()` on `KeyError`.  The result triple is (returned value
with `none` for `Empty()`, store afterwards, callback fired). -/
def getitem (cfg : Cfg A) (now : ℚ) (s : St K V) (k : K) :
    Option (Option V × St K V × Option (Call K V A)) :=
  if containsKey s.base k = false then some (none, s, none)
  else
    match alookup s.time k with
    | none => none
    | some expires_at =>
      if expires_at ≤ now then
        match expire_key cfg s k with
        | none => none
        | some (s', call) => some (alookup s'.base k, s', call)
      else some (alookup s.base k, s, none)

/-- Result of `TimedDict.set_expiration`; `keyNotFound` is the raised
exception, carrying the (unmodified) store. -/
inductive SetExpResult (K V : Type) where
  | ok (s : St K V)
  | keyNotFound (s : St K V)
deriving DecidableEq

/-- `TimedDict.set_expiration`: silently return when the key is absent
and `ignore_missing`, raise when absent and not `ignore_missing`;
otherwise `additional_seconds` adds to the recorded deadline, else
`seconds` sets the deadline to `now + seconds`, else no-op. -/
def set_expiration (now : ℚ) (s : St K V) (k : K) (ignore_missing : Bool)
    (additional_seconds seconds : Option ℚ) : SetExpResult K V :=
  if containsKey s.time k = false ∧ ignore_missing = true then .ok s
  else if containsKey s.time k = false ∧ ignore_missing = false then
    .keyNotFound s
  else
    match additional_seconds with
    | some a => .ok { s with time := amodify s.time k (fun t => t + a) }
    | none =>
      match seconds with
      | some sec => .ok { s with time := aset s.time k (now + sec) }
      | none => .ok s

/-- Outcome of one iteration of the `while` loop in `TimedDict.sweep`:
final store, `keys_checked`, the marked `expire_keys` (in snapshot
order), the callbacks fired, whether the pass ends in `time.sleep`,
and the slept duration `1. / self.checks_per_second` when it does. -/
structure SweepOut (K V A : Type) where
  state : St K V
  keys_checked : ℕ
  expire_keys : List K
  calls : List (Call K V A)
  sleeps : Bool
  sleep_seconds : Option ℚ
deriving DecidableEq

/-- The `for key in expire_keys: self.expire_key(key)` loop of the
sweep, threading the store and collecting the callbacks fired. -/
def sweepExpire (cfg : Cfg A) (acc : St K V × List (Call K V A)) (ks : List K) :
    St K V × List (Call K V A) :=
  ks.foldl
    (fun acc k =>
      match expire_key cfg acc.1 k with
      | some (s', call) => (s', acc.2 ++ call.toList)
      | none => acc)
    acc

/-- One pass of `TimedDict.sweep`.  `draw k` is the `random.random()`
value drawn when the snapshot item for key `k` is visited (snapshot
keys are unique, so indexing draws by key is faithful); an item is
skipped when `draw k > sample_probability`.  A sampled item with
`now >= expire_time` is marked, every marked key is expired via
`expire_key`, and the pass sleeps exactly when the stale fraction of
the sample (0 if the sample is empty) is below the threshold. -/
def sweepPass (cfg : Cfg A) (draw : K → ℚ) (now : ℚ) (s : St K V) :
    SweepOut K V A :=
  let items := s.time
  let sampled := items.filter (fun p => decide (¬ draw p.1 > cfg.sample_probability))
  let keys_checked := sampled.length
  let expire_keys := (sampled.filter (fun p => decide (now ≥ p.2))).map Prod.fst
  let fin := sweepExpire cfg (s, []) expire_keys
  let stale_fraction : ℚ :=
    if keys_checked > 0 then (expire_keys.length : ℚ) / (keys_checked : ℚ) else 0
  { state := fin.1
    keys_checked := keys_checked
    expire_keys := expire_keys
    calls := fin.2
    sleeps := decide (stale_fraction < cfg.repeat_threshold)
    sleep_seconds :=
      if stale_fraction < cfg.repeat_threshold then
        some (1 / cfg.checks_per_second)
      else none }

/-- `time.sleep(1. / self.checks_per_second)`: the duration slept
between passes. -/
def sweepSleepSeconds (cfg : Cfg A) : ℚ :=
  1 / cfg.checks_per_second

/-- The lockstep invariant: `base_dict` and `time_dict` hold exactly
the same keys. -/
def Inv (s : St K V) : Prop :=
  ∀ j, containsKey s.base j = containsKey s.time j

/-! ### Lemmas about the dictionary model -/

theorem alookup_aset_self (l : List (K × V)) (k : K) (v : V) :
    alookup (aset l k v) k = some v := by
  induction l with
  | nil => simp [aset, alookup]
  | cons p rest ih =>
    obtain ⟨k', v'⟩ := p
    by_cases h : k = k' <;> simp [aset, alookup, h, ih]

theorem alookup_aset_ne (l : List (K × V)) (k j : K) (v : V) (h : j ≠ k) :
    alookup (aset l k v) j = alookup l j := by
  induction l with
  | nil => simp [aset, alookup, h]
  | cons p rest ih =>
    obtain ⟨k', v'⟩ := p
    by_cases hk : k = k'
    · subst hk
      simp [aset, alookup, h]
    · by_cases hj : j = k' <;> simp [aset, alookup, hk, hj, ih]

theorem alookup_aremove_self (l : List (K × V)) (k : K) :
    alookup (aremove l k) k = none := by
  induction l with
  | nil => simp [aremove, alookup]
  | cons p rest ih =>
    obtain ⟨k', v'⟩ := p
    by_cases h : k' = k
    · simpa [aremove, alookup, h] using ih
    · simpa [aremove, alookup, h, Ne.symm h] using ih

theorem alookup_aremove_ne (l : List (K × V)) (k j : K) (h : j ≠ k) :
    alookup (aremove l k) j = alookup l j := by
  induction l with
  | nil => simp [aremove, alookup]
  | cons p rest ih =>
    obtain ⟨k', v'⟩ := p
    by_cases hk : k' = k
    · subst hk
      have h1 : aremove ((k', v') :: rest) k' = aremove rest k' := by
        simp [aremove]
      rw [h1, ih]
      simp [alookup, h]
    · have h1 : aremove ((k', v') :: rest) k = (k', v') :: aremove rest k := by
        simp [aremove, hk]
      rw [h1]
      by_cases hj : j = k' <;> simp [alookup, hj, ih]

theorem alookup_amodify_self (l : List (K × V)) (k : K) (f : V → V) (v : V)
    (h : alookup l k = some v) :
    alookup (amodify l k f) k = some (f v) := by
  induction l with
  | nil => simp [alookup] at h
  | cons p rest ih =>
    obtain ⟨k', v'⟩ := p
    by_cases hk : k = k'
    · simp [alookup, hk] at h
      simp [amodify, alookup, hk, h]
    · simp [alookup, hk] at h
      simp [amodify, alookup, hk, ih h]

theorem containsKey_amodify (l : List (K × V)) (k j : K) (f : V → V) :
    containsKey (amodify l k f) j = containsKey l j := by
  induction l with
  | nil => rfl
  | cons p rest ih =>
    obtain ⟨k', v'⟩ := p
    by_cases hk : k = k'
    · by_cases hj : j = k' <;> simp [amodify, containsKey, alookup, hk, hj]
    · have h1 : amodify ((k', v') :: rest) k f = (k', v') :: amodify rest k f := by
        simp [amodify, hk]
      rw [h1]
      by_cases hj : j = k'
      · simp [containsKey, alookup, hj]
      · simp only [containsKey, alookup, if_neg hj]
        exact ih

theorem containsKey_aset (l : List (K × V)) (k j : K) (v : V) :
    containsKey (aset l k v) j = (decide (j = k) || containsKey l j) := by
  by_cases h : j = k
  · subst h
    simp [containsKey, alookup_aset_self]
  · simp [containsKey, alookup_aset_ne l k j v h, h]

theorem containsKey_aremove (l : List (K × V)) (k j : K) :
    containsKey (aremove l k) j = (decide (j ≠ k) && containsKey l j) := by
  by_cases h : j = k
  · subst h
    simp [containsKey, alookup_aremove_self]
  · simp [containsKey, alookup_aremove_ne l k j h, h]

theorem containsKey_eq_true_iff (l : List (K × V)) (k : K) :
    containsKey l k = true ↔ ∃ v, alookup l k = some v := by
  simp [containsKey, Option.isSome_iff_exists]

/-! ### Lemmas about the operations -/

theorem delitem_of_present (s : St K V) (k : K)
    (hb : containsKey s.base k = true) (ht : containsKey s.time k = true) :
    delitem s k = (⟨aremove s.base k, aremove s.time k⟩, true) := by
  simp [delitem, hb, ht]

theorem expire_key_of_present (cfg : Cfg A) (s : St K V) (k : K) (v : V)
    (hb : alookup s.base k = some v) (ht : containsKey s.time k = true) :
    expire_key cfg s k =
      some (⟨aremove s.base k, aremove s.time k⟩,
        if cfg.has_callback then
          some ⟨k, v, cfg.callback_args, cfg.callback_kwargs⟩
        else none) := by
  have hb' : containsKey s.base k = true := by
    simp [containsKey, hb]
  simp [expire_key, hb, delitem_of_present s k hb' ht]

/-! ### Preservation of the lockstep invariant -/

theorem Inv_removeBoth {s : St K V} (hs : Inv s) (k : K) :
    Inv (⟨aremove s.base k, aremove s.time k⟩ : St K V) := by
  intro j
  simp only [containsKey_aremove]
  rw [hs j]

theorem Inv_setitem {s : St K V} (hs : Inv s) (cfg : Cfg A) (now : ℚ)
    (k : K) (v : V) :
    Inv (setitem cfg now s k v) := by
  intro j
  simp only [setitem, containsKey_aset]
  rw [hs j]

theorem Inv_delitem {s : St K V} (hs : Inv s) (k : K) :
    Inv (delitem s k).1 := by
  by_cases hb : containsKey s.base k = true
  · have ht : containsKey s.time k = true := (hs k) ▸ hb
    rw [delitem_of_present s k hb ht]
    exact Inv_removeBoth hs k
  · simp only [Bool.not_eq_true] at hb
    simp only [delitem, hb, Bool.false_eq_true, if_false]
    exact hs

theorem Inv_expire_key {s : St K V} (hs : Inv s) (cfg : Cfg A) (k : K)
    {st : St K V} {c : Option (Call K V A)}
    (h : expire_key cfg s k = some (st, c)) : Inv st := by
  cases hv : alookup s.base k with
  | none => simp [expire_key, hv] at h
  | some v0 =>
    have hbc : containsKey s.base k = true := by simp [containsKey, hv]
    have htc : containsKey s.time k = true := (hs k) ▸ hbc
    rw [expire_key_of_present cfg s k v0 hv htc] at h
    obtain ⟨h1, -⟩ := Prod.mk.injEq .. ▸ Option.some.inj h
    exact h1 ▸ Inv_removeBoth hs k

theorem Inv_sweepExpire (cfg : Cfg A) :
    ∀ (ks : List K) (acc : St K V × List (Call K V A)), Inv acc.1 →
      Inv (sweepExpire cfg acc ks).1 := by
  intro ks
  induction ks with
  | nil => intro acc h; exact h
  | cons k ks ih =>
    intro acc h
    have hstep : sweepExpire cfg acc (k :: ks) =
        sweepExpire cfg
          (match expire_key cfg acc.1 k with
           | some (s', call) => (s', acc.2 ++ call.toList)
           | none => acc) ks := rfl
    rw [hstep]
    apply ih
    cases he : expire_key cfg acc.1 k with
    | none => simpa [he] using h
    | some r =>
      obtain ⟨s', call⟩ := r
      simpa [he] using Inv_expire_key h cfg k he

theorem Inv_set_expiration {s : St K V} (hs : Inv s) (now : ℚ) (k : K)
    (im : Bool) (addl secs : Option ℚ) {st : St K V}
    (h : set_expiration now s k im addl secs = SetExpResult.ok st) :
    Inv st := by
  by_cases ht : containsKey s.time k = true
  · rcases addl with - | a
    · rcases secs with - | sec
      · have : st = s := by
          simp [set_expiration, ht] at h
          exact h.symm
        exact this ▸ hs
      · have : st = { s with time := aset s.time k (now + sec) } := by
          simp [set_expiration, ht] at h
          exact h.symm
        subst this
        intro j
        simp only [containsKey_aset]
        by_cases hj : j = k
        · subst hj
          simp [hs j ▸ ht, (hs j) ▸ ht]
        · simp [hj, hs j]
    · have : st = { s with time := amodify s.time k (fun t => t + a) } := by
        simp [set_expiration, ht] at h
        exact h.symm
      subst this
      intro j
      simp only [containsKey_amodify]
      exact hs j
  · simp only [Bool.not_eq_true] at ht
    cases im with
    | false => simp [set_expiration, ht] at h
    | true =>
      have : st = s := by
        simp [set_expiration, ht] at h
        exact h.symm
      exact this ▸ hs

theorem Inv_getitem {s : St K V} (hs : Inv s) (cfg : Cfg A) (now : ℚ) (k : K)
    {r : Option V} {st : St K V} {c : Option (Call K V A)}
    (h : getitem cfg now s k = some (r, st, c)) : Inv st := by
  by_cases hb : containsKey s.base k = true
  · cases ht : alookup s.time k with
    | none => simp [getitem, hb, ht] at h
    | some expires_at =>
      by_cases hexp : expires_at ≤ now
      · cases he : expire_key cfg s k with
        | none => simp [getitem, hb, ht, hexp, he] at h
        | some r' =>
          obtain ⟨s', call⟩ := r'
          have hst : st = s' := by
            simp [getitem, hb, ht, hexp, he] at h
            exact h.2.1.symm
          exact hst ▸ Inv_expire_key hs cfg k he
      · have hst : st = s := by
          simp [getitem, hb, ht, hexp] at h
          exact h.2.1.symm
        exact hst ▸ hs
  · simp only [Bool.not_eq_true] at hb
    have hst : st = s := by
      simp [getitem, hb] at h
      exact h.2.1.symm
    exact hst ▸ hs

/-! ### Concrete instances used by the witnesses -/

/-- A concrete configuration with a callback, for witnesses. -/
def cfgEx : Cfg ℕ :=
  { timeout := 10
    checks_per_second := 2
    sample_probability := 1
    repeat_threshold := 0
    has_callback := true
    callback_args := [7]
    callback_kwargs := [("w", 3)] }

/-- A concrete two-key store, for witnesses. -/
def stEx : St ℕ ℕ :=
  { base := [(0, 1), (1, 2)], time := [(0, 5), (1, 6)] }

/-- A store of 100 keys, all of whose deadlines (instant `0`) are
already in the past at instant `1`. -/
def st100 : St ℕ ℕ :=
  ⟨(List.range 100).map (fun i => (i, i)),
   (List.range 100).map (fun i => (i, (0 : ℚ)))⟩

/-! ### The claims -/

/-- Claim C1: after `set(k, v)` at time `t`, a `get(k)` at `t' < t +
timeout` returns `v`, and a `get(k)` at `t' ≥ t + timeout` expires the
key inline (removing it from both mappings and firing the configured
callback) and returns the `Empty` sentinel, never the stored value. -/
theorem claimC1_get_after_set (cfg : Cfg A) (s : St K V) (k : K) (v : V)
    (t t' : ℚ) :
    getitem cfg t' (setitem cfg t s k v) k =
      some (if t + cfg.timeout ≤ t' then
          (none,
           ⟨aremove (aset s.base k v) k,
            aremove (aset s.time k (t + cfg.timeout)) k⟩,
           if cfg.has_callback then
             some ⟨k, v, cfg.callback_args, cfg.callback_kwargs⟩
           else none)
        else (some v, setitem cfg t s k v, none)) := by
  have hb : alookup (aset s.base k v) k = some v := alookup_aset_self s.base k v
  have hbc : containsKey (aset s.base k v) k = true := by
    simp [containsKey, hb]
  have ht : alookup (aset s.time k (t + cfg.timeout)) k = some (t + cfg.timeout) :=
    alookup_aset_self s.time k (t + cfg.timeout)
  have htc : containsKey (aset s.time k (t + cfg.timeout)) k = true := by
    simp [containsKey, ht]
  have hek : expire_key cfg
      (⟨aset s.base k v, aset s.time k (t + cfg.timeout)⟩ : St K V) k =
      some (⟨aremove (aset s.base k v) k,
             aremove (aset s.time k (t + cfg.timeout)) k⟩,
        if cfg.has_callback then
          some ⟨k, v, cfg.callback_args, cfg.callback_kwargs⟩
        else none) :=
    expire_key_of_present cfg _ k v hb htc
  by_cases hle : t + cfg.timeout ≤ t'
  · simp [getitem, setitem, hbc, ht, hle, hek, alookup_aremove_self]
  · simp [getitem, setitem, hbc, hb, ht, hle]

/-- Claim C2: `expire_key` on a present key reads the value, removes
the key from both the value mapping and the deadline mapping, and only
then invokes the configured callback with `(key, value)` plus the
configured extra arguments; the store state at callback time no longer
contains the key in either mapping. -/
theorem claimC2_expire_key_order (cfg : Cfg A) (s : St K V) (k : K) (v : V)
    (hb : alookup s.base k = some v) (ht : containsKey s.time k = true) :
    expire_key cfg s k =
      some (⟨aremove s.base k, aremove s.time k⟩,
        if cfg.has_callback then
          some ⟨k, v, cfg.callback_args, cfg.callback_kwargs⟩
        else none)
    ∧ containsKey (aremove s.base k) k = false
    ∧ containsKey (aremove s.time k) k = false := by
  refine ⟨expire_key_of_present cfg s k v hb ht, ?_, ?_⟩ <;>
    simp [containsKey_aremove]

/-- Witness for C2 at a concrete store and configuration. -/
theorem claimC2_witness :
    expire_key cfgEx stEx 0 =
      some (⟨[(1, 2)], [(1, 6)]⟩, some ⟨0, 1, [7], [("w", 3)]⟩)
    ∧ containsKey (aremove stEx.base 0) 0 = false
    ∧ containsKey (aremove stEx.time 0) 0 = false := by
  have h := claimC2_expire_key_order cfgEx stEx 0 1 (by decide) (by decide)
  refine ⟨?_, h.2.1, h.2.2⟩
  rw [h.1]
  decide

/-- Claim C9: a `get` on a present, not-yet-expired key returns the
stored value and leaves the store completely unchanged; in the expired
case `get` mutates the store only by removing the single key read,
leaving every other binding of both mappings intact. -/
theorem claimC9_get_frame (cfg : Cfg A) (now : ℚ) (s : St K V) (k : K)
    (v : V) (e : ℚ)
    (hb : alookup s.base k = some v) (ht : alookup s.time k = some e) :
    (now < e → getitem cfg now s k = some (some v, s, none))
    ∧ (e ≤ now →
        getitem cfg now s k =
          some (none, ⟨aremove s.base k, aremove s.time k⟩,
            if cfg.has_callback then
              some ⟨k, v, cfg.callback_args, cfg.callback_kwargs⟩
            else none)
        ∧ ∀ j, j ≠ k →
            alookup (aremove s.base k) j = alookup s.base j
            ∧ alookup (aremove s.time k) j = alookup s.time j) := by
  have hbc : containsKey s.base k = true := by simp [containsKey, hb]
  have htc : containsKey s.time k = true := by simp [containsKey, ht]
  constructor
  · intro hlt
    simp [getitem, hbc, hb, ht, not_le.mpr hlt]
  · intro hle
    refine ⟨?_, fun j hj =>
      ⟨alookup_aremove_ne s.base k j hj, alookup_aremove_ne s.time k j hj⟩⟩
    simp [getitem, hbc, ht, hle, expire_key_of_present cfg s k v hb htc,
      alookup_aremove_self]

/-- Witness for C9: a fresh read and an expired read at concrete
inputs. -/
theorem claimC9_witness :
    getitem cfgEx 4 stEx 0 = some (some 1, stEx, none)
    ∧ getitem cfgEx 5 stEx 0 =
        some (none, ⟨aremove stEx.base 0, aremove stEx.time 0⟩,
          some ⟨0, 1, [7], [("w", 3)]⟩) := by
  constructor
  · exact (claimC9_get_frame cfgEx 4 stEx 0 1 5 (by decide) (by decide)).1
      (by norm_num)
  · have h := ((claimC9_get_frame cfgEx 5 stEx 0 1 5 (by decide)
      (by decide)).2 (by norm_num)).1
    rw [h]
    decide

/-- Claim C3: a sweep pass samples exactly the snapshot items whose
draw is at most `sample_probability`, marks exactly the sampled items
whose deadline is at most the pass start time, and skips the sleep if
and only if the stale fraction of the sample (0 for an empty sample)
is at least the repeat threshold. -/
theorem claimC3_sweep_repeat (cfg : Cfg A) (draw : K → ℚ) (now : ℚ)
    (s : St K V) :
    (sweepPass cfg draw now s).keys_checked =
      (s.time.filter (fun p => decide (draw p.1 ≤ cfg.sample_probability))).length
    ∧ (sweepPass cfg draw now s).expire_keys =
        ((s.time.filter
            (fun p => decide (draw p.1 ≤ cfg.sample_probability))).filter
          (fun p => decide (p.2 ≤ now))).map Prod.fst
    ∧ ((sweepPass cfg draw now s).sleeps = false ↔
        (if (sweepPass cfg draw now s).keys_checked = 0 then (0 : ℚ)
         else ((sweepPass cfg draw now s).expire_keys.length : ℚ) /
           ((sweepPass cfg draw now s).keys_checked : ℚ))
          ≥ cfg.repeat_threshold) := by
  have hfun : (fun p : K × ℚ => decide (¬ draw p.1 > cfg.sample_probability)) =
      (fun p : K × ℚ => decide (draw p.1 ≤ cfg.sample_probability)) := by
    funext p
    exact decide_eq_decide.mpr not_lt
  have hfun2 : (fun p : K × ℚ => decide (now ≥ p.2)) =
      (fun p : K × ℚ => decide (p.2 ≤ now)) := by
    funext p
    exact decide_eq_decide.mpr ge_iff_le
  refine ⟨by simp [sweepPass, hfun], by simp [sweepPass, hfun, hfun2], ?_⟩
  simp only [sweepPass, hfun, hfun2]
  by_cases hc :
      (s.time.filter
        (fun p => decide (draw p.1 ≤ cfg.sample_probability))).length = 0
  · simp [hc, not_lt, ge_iff_le]
  · have hpos : 0 <
        (s.time.filter
          (fun p => decide (draw p.1 ≤ cfg.sample_probability))).length :=
      Nat.pos_of_ne_zero hc
    simp [hc, hpos, not_lt, ge_iff_le]

/-- Claim C4: the lockstep invariant (the value mapping and the
deadline mapping hold exactly the same keys) is preserved by every
operation: set, get, delete, set_expiration, expire-one, and a sweep
pass. -/
theorem claimC4_lockstep (cfg : Cfg A) (s : St K V) (hs : Inv s) (now : ℚ)
    (k : K) (v : V) (im : Bool) (addl secs : Option ℚ) (draw : K → ℚ) :
    Inv (setitem cfg now s k v)
    ∧ (∀ r st c, getitem cfg now s k = some (r, st, c) → Inv st)
    ∧ Inv (delitem s k).1
    ∧ (∀ st, set_expiration now s k im addl secs = SetExpResult.ok st → Inv st)
    ∧ (∀ st c, expire_key cfg s k = some (st, c) → Inv st)
    ∧ Inv (sweepPass cfg draw now s).state :=
  ⟨Inv_setitem hs cfg now k v,
   fun _ _ _ h => Inv_getitem hs cfg now k h,
   Inv_delitem hs k,
   fun _ h => Inv_set_expiration hs now k im addl secs h,
   fun _ _ h => Inv_expire_key hs cfg k h,
   Inv_sweepExpire cfg _ (s, []) hs⟩

/-- Witness for C4 at a concrete store satisfying the invariant. -/
theorem claimC4_witness :
    Inv (setitem cfgEx 9 stEx 0 9)
    ∧ Inv (delitem stEx 0).1
    ∧ Inv (sweepPass cfgEx (fun _ => (0 : ℚ)) 9 stEx).state := by
  have hs : Inv stEx := by
    intro j
    by_cases h0 : j = 0 <;> by_cases h1 : j = 1 <;>
      simp [stEx, containsKey, alookup, h0, h1]
  have h := claimC4_lockstep cfgEx stEx hs 9 0 9 false none none (fun _ => 0)
  exact ⟨h.1, h.2.2.1, h.2.2.2.2.2⟩

/-- Counterexample to claim C5: deleting a missing key raises
`KeyError` (the success flag of the modelled `__delitem__` is `false`)
instead of returning the `Absent` sentinel. -/
theorem claimC5_counterexample :
    delitem (⟨[], []⟩ : St ℕ ℕ) 0 = (⟨[], []⟩, false) := by decide

/-- Claim C5 as amended: on a store satisfying the lockstep invariant
at `k`, `del d[k]` removes the key from both mappings when it is
present, and raises `KeyError` leaving the store unmodified when it is
missing; it returns no value, and the deletion path contains no
callback invocation. -/
theorem claimC5_delete (s : St K V) (k : K)
    (h : containsKey s.base k = containsKey s.time k) :
    delitem s k =
      if containsKey s.base k = true
      then (⟨aremove s.base k, aremove s.time k⟩, true)
      else (s, false) := by
  by_cases hb : containsKey s.base k = true
  · rw [if_pos hb]
    exact delitem_of_present s k hb (h ▸ hb)
  · rw [if_neg hb]
    simp only [Bool.not_eq_true] at hb
    simp [delitem, hb]

/-- Witness for the amended C5 at a concrete store. -/
theorem claimC5_witness :
    delitem stEx 0 = (⟨[(1, 2)], [(1, 6)]⟩, true) := by
  have h := claimC5_delete stEx 0 (by decide)
  rw [h]
  decide

/-- Claim C6: `set_expiration` raises `KeyNotFound` exactly when the
key is absent and `ignore_missing` is false, leaving the store
unmodified; an absent key with `ignore_missing` true returns silently
with the store unmodified; a present key with neither
`additional_seconds` nor `seconds` is a no-op. -/
theorem claimC6_set_expiration (now : ℚ) (s : St K V) (k : K) (im : Bool)
    (addl secs : Option ℚ) :
    (set_expiration now s k im addl secs = SetExpResult.keyNotFound s ↔
      containsKey s.time k = false ∧ im = false)
    ∧ (containsKey s.time k = false → im = true →
        set_expiration now s k im addl secs = SetExpResult.ok s)
    ∧ (containsKey s.time k = true →
        set_expiration now s k im none none = SetExpResult.ok s) := by
  cases h : containsKey s.time k <;> cases im <;>
    rcases addl with - | a <;> rcases secs with - | sec <;>
      simp [set_expiration, h]

/-- Witness for C6: the silent-return and no-op branches at concrete
inputs. -/
theorem claimC6_witness :
    set_expiration (0 : ℚ) (⟨[], []⟩ : St ℕ ℕ) 0 true none none =
      SetExpResult.ok ⟨[], []⟩
    ∧ set_expiration (0 : ℚ) stEx 0 false none none = SetExpResult.ok stEx :=
  ⟨(claimC6_set_expiration 0 ⟨[], []⟩ 0 true none none).2.1 (by decide) rfl,
   (claimC6_set_expiration 0 stEx 0 false none none).2.2 (by decide)⟩

/-- Claim C7: with construction argument `checks_per_second = c ≠ 0`,
`__init__` stores `1 / c` and the sweeper sleeps `1 / (1 / c) = c`
seconds between passes, i.e. exactly the configured argument value,
whenever a pass ends in a sleep. -/
theorem claimC7_sleep_duration (t cps sp rt : ℚ) (hcb : Bool) (ca : List A)
    (ck : List (String × A)) (cfg : Cfg A) (_hnz : cps ≠ 0)
    (hmk : mkCfg (some t) cps sp hcb rt ca ck = some cfg)
    (draw : K → ℚ) (now : ℚ) (s : St K V) :
    sweepSleepSeconds cfg = cps
    ∧ (sweepPass cfg draw now s).sleep_seconds =
        (if (sweepPass cfg draw now s).sleeps then some cps else none) := by
  obtain rfl :
      ({ timeout := t
         checks_per_second := 1 / cps
         sample_probability := sp
         repeat_threshold := rt
         has_callback := hcb
         callback_args := ca
         callback_kwargs := ck } : Cfg A) = cfg := by
    simpa [mkCfg] using hmk
  constructor
  · simp [sweepSleepSeconds, one_div_one_div]
  · simp [sweepPass, one_div_one_div]

/-- Witness for C7 with `checks_per_second = 1/2`. -/
theorem claimC7_witness :
    sweepSleepSeconds cfgEx = 1 / 2
    ∧ (sweepPass cfgEx (fun _ : ℕ => (0 : ℚ)) 0 (⟨[], []⟩ : St ℕ ℕ)).sleep_seconds =
        (if (sweepPass cfgEx (fun _ : ℕ => (0 : ℚ)) 0
              (⟨[], []⟩ : St ℕ ℕ)).sleeps
         then some (1 / 2 : ℚ) else none) :=
  claimC7_sleep_duration 10 (1 / 2) 1 0 true [7] [("w", 3)] cfgEx
    (by norm_num) (by norm_num [mkCfg, cfgEx]) (fun _ => 0) 0 ⟨[], []⟩

set_option maxRecDepth 10000 in
/-- Claim C8: with `sample_probability = 1` every snapshot key is
sampled (every `random.random()` draw is below 1), the marked keys are
exactly those with deadline at most the pass start, and one pass over
the 100-key pre-expired store `st100` (with repeat threshold 0) drains
all 100 keys. -/
theorem claimC8_full_sample (cfg : Cfg A) (draw : K → ℚ) (now : ℚ)
    (s : St K V) (hp : cfg.sample_probability = 1) (hd : ∀ j, draw j < 1) :
    (sweepPass cfg draw now s).keys_checked = s.time.length
    ∧ (sweepPass cfg draw now s).expire_keys =
        (s.time.filter (fun p => decide (now ≥ p.2))).map Prod.fst
    ∧ (sweepPass cfgEx (fun _ => (0 : ℚ)) 1 st100).state = ⟨[], []⟩
    ∧ (sweepPass cfgEx (fun _ => (0 : ℚ)) 1 st100).expire_keys.length = 100 := by
  have hfull : s.time.filter
      (fun p => decide (¬ draw p.1 > cfg.sample_probability)) = s.time := by
    apply List.filter_eq_self.mpr
    intro p _
    simp only [decide_eq_true_eq, not_lt, hp]
    exact le_of_lt (hd p.1)
  refine ⟨?_, ?_, ?_, ?_⟩
  · simp only [sweepPass, hfull]
  · simp only [sweepPass, hfull]
  · decide
  · decide

/-- Witness for C8 applying the theorem at the concrete 100-key
store. -/
theorem claimC8_witness :
    (sweepPass cfgEx (fun _ : ℕ => (0 : ℚ)) 1 st100).keys_checked =
      st100.time.length := by
  exact (claimC8_full_sample cfgEx (fun _ => 0) 1 st100 rfl
    (fun _ => by norm_num)).1

/-- Claim C10: when both `additional_seconds` and `seconds` are given
on a present key, only `additional_seconds` takes effect: the deadline
becomes its previous value plus `additional_seconds`, and `seconds` is
ignored. -/
theorem claimC10_additional_wins (now : ℚ) (s : St K V) (k : K) (im : Bool)
    (a sec e : ℚ) (ht : alookup s.time k = some e) :
    set_expiration now s k im (some a) (some sec) =
      SetExpResult.ok { s with time := amodify s.time k (fun t => t + a) }
    ∧ alookup (amodify s.time k (fun t => t + a)) k = some (e + a) := by
  have hc : containsKey s.time k = true := by simp [containsKey, ht]
  exact ⟨by simp [set_expiration, hc],
    alookup_amodify_self s.time k (fun t => t + a) e ht⟩

/-- Witness for C10: deadline 5 plus 3 becomes 8; `seconds = 50` is
ignored. -/
theorem claimC10_witness :
    set_expiration 100 stEx 0 false (some 3) (some 50) =
      SetExpResult.ok ⟨[(0, 1), (1, 2)], [(0, 8), (1, 6)]⟩ := by
  have h := claimC10_additional_wins 100 stEx 0 false 3 50 5 (by decide)
  rw [h.1]
  norm_num [stEx, amodify]

end TimedDict
